import Mathlib

/-!
Verification development for the qudit-sim drive-sequence compiler
(`qudit_sim/drive.py`), the generalized matrix-function evaluator
(`qudit_sim/utils.py`), the branch-cut detector
(`qudit_sim/heff/common.py`) and the iterative-fit selection step
(`qudit_sim/heff/inspection.py`).

Modelling conventions:
* Python floats (frequencies, phases, times, real coefficients) are
  modelled as `ℚ`; no claim here depends on floating-point rounding.
* Python complex scalars are modelled as `CC` (pairs of rationals).
* The float library functions `cos`/`sin` used to evaluate
  `np.exp(-1j * phase)` are modelled by an explicit argument
  `trig : ℚ → ℚ × ℚ` returning the (cosine, sine) pair of its input;
  theorems that need the value at phase 0 take `trig 0 = (1, 0)` as a
  hypothesis.
* The modules `qudit_sim.expression`, `qudit_sim.pulse` and
  `qudit_sim.config` are imported by `drive.py` but their sources are not
  part of the repository snapshot; their objects (TimeFunction values,
  Pulse envelopes, parameter expressions, the solver toggle) are modelled
  from the spec as inert ASTs (`CF`, `PE`, `SE` below).  Only their
  runtime type (which drives all dispatch in `drive.py`) matters to the
  claims, never their pointwise evaluation.
-/

/- The Batteries rational arithmetic definitions are `@[irreducible]`,
which blocks `decide`-style evaluation of the executable model at
concrete inputs; re-open them for reduction. -/
unseal Rat.add Rat.sub Rat.mul Rat.inv

namespace QuditSim

/-- Complex numbers with rational components, modelling Python `complex`. -/
structure CC where
  re : ℚ
  im : ℚ
deriving DecidableEq, Repr

instance : Mul CC := ⟨fun a b => ⟨a.re * b.re - a.im * b.im, a.re * b.im + a.im * b.re⟩⟩

theorem CC.mul_def (a b : CC) :
    a * b = ⟨a.re * b.re - a.im * b.im, a.re * b.im + a.im * b.re⟩ := rfl

theorem CC.mul_comm (a b : CC) : a * b = b * a := by
  simp only [CC.mul_def, CC.mk.injEq]
  constructor <;> ring

/-- Scalar used as `2.` in `_generate_single_full` (`amplitude * 2. * drive_base`). -/
def CC.ofQ (q : ℚ) : CC := ⟨q, 0⟩

/-- A point on the walk time axis: finite float value or `np.inf`
(reached only when an indefinite drive terminates the walk). -/
inductive ETime where
  | fin (t : ℚ)
  | inf
deriving DecidableEq, Repr

/-- Deferred parameter expressions (`qudit_sim.expression`; not in the
repository snapshot).  Modelled from the spec: a deferred expression
carries its unbound parameter and supports arithmetic with plain numbers
and real/imaginary projection; the claims only ever inspect the runtime
category of such values, so this is an inert AST. -/
inductive PE where
  | mulC (name : String) (z : CC)
  | realPart (p : PE)
  | imagPart (p : PE)
deriving DecidableEq, Repr

/-- Text coefficient expressions built by `_generate_single_rwa` /
`_generate_single_full`.  The Python code assembles format strings; the
claims only depend on the fact that the result is a `str`, so each
string-building site is modelled as a constructor carrying the numeric
ingredients that the format string interpolates. -/
inductive SE where
  | rwaConstOsc (isY : Bool) (envelope : CC) (detuning : ℚ)
  | strRes (isY : Bool) (base : CC) (ampText : String)
  | strOsc (isY : Bool) (base : CC) (ampText : String) (detuning : ℚ)
  | strPhase (isY : Bool) (base : CC) (ampText : String) (detuning : ℚ) (cp : ℚ)
  | fullConstOsc (doubleEnvelope : CC) (freq : ℚ)
  | fullStrOsc (base : CC) (ampText : String) (freq : ℚ)
  | fullStrPhase (base : CC) (ampText : String) (freq : ℚ) (cp : ℚ)
  | timesCos (inner : SE) (frameFreq : ℚ)
  | timesSin (inner : SE) (frameFreq : ℚ)
  | emptyStr
deriving DecidableEq, Repr

/-- Amplitude categories dispatched on in `drive.py` (the final `else`
branch of the walk and the `isinstance` ladders of the two generators):
a numeric literal, a `Parameter`, a text expression (with its optional
static complex value, modelling `complex(eval(inst))`), a sampled
`np.ndarray`, a finite-duration `Pulse` (a callable carrying a duration;
`qudit_sim.pulse` is not in the snapshot, modelled from the spec), or a
generic callable. -/
inductive Amp where
  | const (z : CC)
  | param (name : String)
  | text (s : String) (static : Option CC)
  | arr (xs : List CC)
  | pulse (duration : ℚ) (pid : Nat)
  | callable (fid : Nat)
deriving DecidableEq, Repr

/-- Python `isinstance(inst, Pulse)`. -/
def Amp.isPulse : Amp → Bool
  | .pulse _ _ => true
  | _ => false

/-- Time-function objects (`TimeFunction` values of `qudit_sim.expression`,
which is not in the repository snapshot).  Modelled from the spec: the
algebra composes constants, deferred expressions, sampled arrays,
oscillatory primitives and envelopes with `+`, `*`, real/imaginary part
and absolute value.  Each constructor mirrors one composition site in
`drive.py`; the claims never evaluate these objects, only classify them. -/
inductive CF where
  | const (z : CC)
  | constPE (p : PE)
  | ofPE (p : PE)
  | arrLift (xs : List CC)
  | envCallable (a : Amp) (base : CC) (tzero : ℚ)
  | oscExp (freq : ℚ) (phase : ℚ)
  | oscCos (freq : ℚ) (phase : ℚ)
  | oscSin (freq : ℚ) (phase : ℚ)
  | oscCosAngle (freq : ℚ) (base : CC) (cp : ℚ)
  | oscSinAngle (freq : ℚ) (base : CC) (cp : ℚ)
  | mul (f g : CF)
  | add (f g : CF)
  | realPart (f : CF)
  | imagPart (f : CF)
  | absPart (f : CF)
  | piecewise (times : List ETime) (fns : List CF)

/-- One compiled Hamiltonian coefficient, classified exactly as the
`isinstance` checks of `DriveTerm.generate_fn` classify it: a plain
Python float, a deferred parameter expression, a `TimeFunction` object,
a real `np.ndarray`, or a text expression. -/
inductive Coef where
  | num (x : ℚ)
  | pexpr (p : PE)
  | tf (f : CF)
  | arr (xs : List ℚ)
  | strE (s : SE)

/-- Runtime category of a coefficient (what `isinstance` can observe). -/
inductive CoefKind where
  | num
  | pexpr
  | tf
  | arr
  | strE
deriving DecidableEq, Repr

def Coef.kind : Coef → CoefKind
  | .num _ => .num
  | .pexpr _ => .pexpr
  | .tf _ => .tf
  | .arr _ => .arr
  | .strE _ => .strE

/-- Python `isinstance(func, TimeFunction)`. -/
def Coef.isTF : Coef → Bool
  | .tf _ => true
  | _ => false

/-- Python `isinstance(func, np.ndarray)`. -/
def Coef.isArr : Coef → Bool
  | .arr _ => true
  | _ => false

/-- Payload extraction used after the homogeneity guard has established
that the coefficient is a `TimeFunction`. -/
def Coef.getCF : Coef → CF
  | .tf f => f
  | _ => .const ⟨0, 0⟩

/-- Payload extraction used after the homogeneity guard has established
that the coefficient is an array. -/
def Coef.getArr : Coef → List ℚ
  | .arr xs => xs
  | _ => []

/-- Exceptions raised by `DriveTerm.__init__` / `DriveTerm.generate_fn` /
the two generators. -/
inductive Err where
  | freqAmpMustBeSet
  | indexOutOfRange
  | shiftFreqBeforeSet
  | setPhaseBeforeSet
  | pulseBeforeSet
  | noDriveAmplitude
  | typeMixture
  | nameErrorDrivePhase
deriving DecidableEq, Repr

/-- The instruction variants consumed by the walk of
`DriveTerm.generate_fn`: the five frozen dataclasses of `drive.py` plus
a bare amplitude object (any sequence element that is none of the five
dataclasses is treated as an amplitude by the final `else` of the walk). -/
inductive Instruction where
  | shiftFrequency (v : ℚ)
  | shiftPhase (v : ℚ)
  | setFrequency (v : ℚ)
  | setPhase (v : ℚ)
  | delay (v : ℚ)
  | amp (a : Amp)
deriving DecidableEq, Repr

def Instruction.isSetFrequency : Instruction → Bool
  | .setFrequency _ => true
  | _ => false

/-- The state of a `DriveTerm` object: its `_sequence` list and its
`constant_phase` attribute. -/
structure DriveTerm where
  sequence : List Instruction
  constant_phase : Option ℚ
deriving DecidableEq, Repr

/-- Source `DriveTerm.__init__`.  Here `frequency`, `amplitude`, `constant_phase` and
`sequence` mirror the Python arguments (`none` = Python `None`); indexing
an empty sequence (`self._sequence[0]`) raises, modelled as
`indexOutOfRange`. -/
def DriveTerm.init (frequency : Option ℚ) (amplitude : Option Amp)
    (constant_phase : Option ℚ) (sequence : Option (List Instruction)) :
    Except Err DriveTerm :=
  match sequence with
  | none =>
    match frequency, amplitude with
    | some f, some a => .ok ⟨[.setFrequency f, .amp a], constant_phase⟩
    | _, _ => .error .freqAmpMustBeSet
  | some seq =>
    match frequency with
    | none => .ok ⟨seq, none⟩
    | some f =>
      match seq with
      | [] => .error .indexOutOfRange
      | i0 :: rest =>
        if i0.isSetFrequency then .ok ⟨i0 :: rest, none⟩
        else .ok ⟨.setFrequency f :: i0 :: rest, none⟩

/-- Numpy `np.isclose(x, 0.)` with default tolerances: `|x| <= atol + rtol * 0`. -/
def isclose0 (x : ℚ) : Bool := |x| ≤ 1 / 100000000

/-- The factor `np.exp(-1j * phase)` = `cos phase - i sin phase`, with the float
cosine/sine supplied by `trig`. -/
def cexpNeg (trig : ℚ → ℚ × ℚ) (phase : ℚ) : CC := ⟨(trig phase).1, -(trig phase).2⟩

/-- The conversion `complex(eval(inst))` applied to a text amplitude inside the walk:
a text expression with a static complex value becomes that complex
literal, every other amplitude is unchanged. -/
def staticEval : Amp → Amp
  | .text s st =>
    match st with
    | some z => .const z
    | none => .text s none
  | a => a

/-- Source `_generate_single_rwa`.  Here `solverJax` models
`config.pulse_sim_solver == "jax"` (the `config` module is not in the
snapshot; the spec describes it as a process-wide solver toggle read at
compile time). -/
def generate_single_rwa (solverJax : Bool) (amplitude : Amp)
    (frequency frame_frequency : ℚ) (drive_base : CC) (tzero : ℚ)
    (constant_phase : Option ℚ) : Except Err (Coef × Coef) :=
  let detuning := frequency - frame_frequency
  let is_resonant := isclose0 detuning
  match amplitude with
  | .const z =>
    let envelope := z * drive_base
    if is_resonant then
      .ok (.num envelope.re, .num envelope.im)
    else if solverJax then
      let f := CF.mul (.oscExp (-detuning) 0) (.const envelope)
      .ok (.tf (.realPart f), .tf (.imagPart f))
    else
      .ok (.strE (.rwaConstOsc false envelope detuning),
           .strE (.rwaConstOsc true envelope detuning))
  | .param n =>
    let envelope := PE.mulC n drive_base
    if is_resonant then
      .ok (.pexpr (.realPart envelope), .pexpr (.imagPart envelope))
    else
      let f := CF.mul (.oscExp (-detuning) 0) (.ofPE envelope)
      .ok (.tf (.realPart f), .tf (.imagPart f))
  | .text s _ =>
    if is_resonant then
      .ok (.strE (.strRes false drive_base s), .strE (.strRes true drive_base s))
    else
      match constant_phase with
      | none =>
        .ok (.strE (.strOsc false drive_base s detuning),
             .strE (.strOsc true drive_base s detuning))
      | some cp =>
        .ok (.strE (.strPhase false drive_base s detuning cp),
             .strE (.strPhase true drive_base s detuning cp))
  | .arr xs =>
    let envelope := xs.map (· * drive_base)
    if is_resonant then
      .ok (.arr (envelope.map CC.re), .arr (envelope.map CC.im))
    else
      let f := CF.mul (.oscExp (-detuning) 0) (.arrLift envelope)
      .ok (.tf (.realPart f), .tf (.imagPart f))
  | .pulse d pid =>
    let envelope := CF.envCallable (.pulse d pid) drive_base tzero
    if is_resonant then
      .ok (.tf (.realPart envelope), .tf (.imagPart envelope))
    else
      match constant_phase with
      | none =>
        let f := CF.mul envelope (.oscExp (-detuning) 0)
        .ok (.tf (.realPart f), .tf (.imagPart f))
      | some cp =>
        .ok (.tf (.mul (.absPart envelope) (.oscCosAngle (-detuning) drive_base cp)),
             .tf (.mul (.absPart envelope) (.oscSinAngle (-detuning) drive_base cp)))
  | .callable fid =>
    let envelope := CF.envCallable (.callable fid) drive_base tzero
    if is_resonant then
      .ok (.tf (.realPart envelope), .tf (.imagPart envelope))
    else
      match constant_phase with
      | none =>
        let f := CF.mul envelope (.oscExp (-detuning) 0)
        .ok (.tf (.realPart f), .tf (.imagPart f))
      | some cp =>
        .ok (.tf (.mul (.absPart envelope) (.oscCosAngle (-detuning) drive_base cp)),
             .tf (.mul (.absPart envelope) (.oscSinAngle (-detuning) drive_base cp)))

/-- The lab-frame function built by `_generate_single_full` before the
final frame multiplication: either a text expression or a time-function
object. -/
inductive LabFrameFn where
  | strE (s : SE)
  | tf (f : CF)

/-- Source `_generate_single_full`.  The callable branch with a non-`None`
`constant_phase` evaluates the undefined name `drive_phase` in the
source, which raises `NameError`; this is modelled as
`nameErrorDrivePhase`. -/
def generate_single_full (solverJax : Bool) (amplitude : Amp)
    (frequency frame_frequency : ℚ) (drive_base : CC) (tzero : ℚ)
    (constant_phase : Option ℚ) : Except Err (Coef × Coef) :=
  let finish : LabFrameFn → Except Err (Coef × Coef) := fun labframe_fn =>
    match labframe_fn with
    | .strE s =>
      if frame_frequency = 0 then .ok (.strE s, .strE .emptyStr)
      else .ok (.strE (.timesCos s frame_frequency), .strE (.timesSin s frame_frequency))
    | .tf f =>
      if frame_frequency = 0 then .ok (.tf f, .tf (.const ⟨0, 0⟩))
      else .ok (.tf (.mul f (.oscCos frame_frequency 0)), .tf (.mul f (.oscSin frame_frequency 0)))
  match amplitude with
  | .const z =>
    let double_envelope := z * (CC.ofQ 2 * drive_base)
    if solverJax then
      finish (.tf (.add (.mul (.const ⟨double_envelope.re, 0⟩) (.oscCos frequency 0))
                        (.mul (.const ⟨double_envelope.im, 0⟩) (.oscSin frequency 0))))
    else
      finish (.strE (.fullConstOsc double_envelope frequency))
  | .param n =>
    let double_envelope := PE.mulC n (CC.ofQ 2 * drive_base)
    finish (.tf (.add (.mul (.ofPE (.realPart double_envelope)) (.oscCos frequency 0))
                      (.mul (.ofPE (.imagPart double_envelope)) (.oscSin frequency 0))))
  | .text s _ =>
    match constant_phase with
    | none => finish (.strE (.fullStrOsc (CC.ofQ 2 * drive_base) s frequency))
    | some cp => finish (.strE (.fullStrPhase (CC.ofQ 2 * drive_base) s frequency cp))
  | .arr xs =>
    let double_envelope := xs.map (· * (CC.ofQ 2 * drive_base))
    finish (.tf (.realPart (.mul (.oscExp (-frequency) 0) (.arrLift double_envelope))))
  | .pulse d pid =>
    let double_envelope := CF.envCallable (.pulse d pid) (CC.ofQ 2 * drive_base) tzero
    match constant_phase with
    | none => finish (.tf (.realPart (.mul double_envelope (.oscExp (-frequency) 0))))
    | some _ => .error .nameErrorDrivePhase
  | .callable fid =>
    let double_envelope := CF.envCallable (.callable fid) (CC.ofQ 2 * drive_base) tzero
    match constant_phase with
    | none => finish (.tf (.realPart (.mul double_envelope (.oscExp (-frequency) 0))))
    | some _ => .error .nameErrorDrivePhase

/-- Dispatch `generate_single = _generate_single_rwa if rwa else _generate_single_full`. -/
def generate_single (rwa solverJax : Bool) (amplitude : Amp)
    (frequency frame_frequency : ℚ) (drive_base : CC) (tzero : ℚ)
    (constant_phase : Option ℚ) : Except Err (Coef × Coef) :=
  if rwa then
    generate_single_rwa solverJax amplitude frequency frame_frequency drive_base tzero
      constant_phase
  else
    generate_single_full solverJax amplitude frequency frame_frequency drive_base tzero
      constant_phase

/-- One `funclist` entry before the terminal marker:
`(start time, fn_x, fn_y)`. -/
abbrev Entry := ℚ × Coef × Coef

/-- The instruction walk of `DriveTerm.generate_fn`: threads
`(frequency, phase_offset, time)` through the sequence and accumulates
`funclist` entries; returns the entries together with the final value of
`time` (the time of the terminal `(time, None, None)` marker), which is
`np.inf` exactly when an indefinite (non-`Pulse`) amplitude broke the
loop. -/
def walk (trig : ℚ → ℚ × ℚ) (rwa solverJax : Bool) (frame_frequency : ℚ)
    (drive_base : CC) (constant_phase : Option ℚ) :
    List Instruction → Option ℚ → ℚ → ℚ → List Entry →
    Except Err (List Entry × ETime)
  | [], _, _, time, funclist => .ok (funclist, .fin time)
  | inst :: rest, frequency, phase_offset, time, funclist =>
    match inst with
    | .shiftFrequency v =>
      match frequency with
      | none => .error .shiftFreqBeforeSet
      | some f => walk trig rwa solverJax frame_frequency drive_base constant_phase rest
          (some (f + v)) phase_offset time funclist
    | .shiftPhase v =>
      walk trig rwa solverJax frame_frequency drive_base constant_phase rest frequency
        (phase_offset + v) time funclist
    | .setFrequency v =>
      walk trig rwa solverJax frame_frequency drive_base constant_phase rest (some v)
        phase_offset time funclist
    | .setPhase v =>
      match frequency with
      | none => .error .setPhaseBeforeSet
      | some f => walk trig rwa solverJax frame_frequency drive_base constant_phase rest
          frequency (v - f * time) time funclist
    | .delay v =>
      walk trig rwa solverJax frame_frequency drive_base constant_phase rest frequency
        phase_offset (time + v)
        (funclist ++ [(time, .tf (.const ⟨0, 0⟩), .tf (.const ⟨0, 0⟩))])
    | .amp a =>
      match frequency with
      | none => .error .pulseBeforeSet
      | some f =>
        let a2 := staticEval a
        match generate_single rwa solverJax a2 f frame_frequency
            (drive_base * cexpNeg trig phase_offset) time constant_phase with
        | .error e => .error e
        | .ok (fn_x, fn_y) =>
          match a2 with
          | .pulse d _ => walk trig rwa solverJax frame_frequency drive_base constant_phase
              rest frequency phase_offset (time + d) (funclist ++ [(time, fn_x, fn_y)])
          | _ => .ok (funclist ++ [(time, fn_x, fn_y)], .inf)

/-- The merge stage of `DriveTerm.generate_fn` after the walk:
`funclist` has received its terminal `(time, None, None)` marker, so the
Python lengths `1` / `2` correspond to `0` / `1` entries here.  The
homogeneity guards test `isinstance` on the X coefficient of each entry,
exactly as the generator expressions of the source destructure
`for _, func, _ in funclist[:-1]`. -/
def mergeFunclist (entries : List Entry) (tEnd : ETime) : Except Err (Coef × Coef) :=
  if entries.length = 0 then .error .noDriveAmplitude
  else if entries.length = 1 then
    .ok ((entries.headD (0, .num 0, .num 0)).2.1, (entries.headD (0, .num 0, .num 0)).2.2)
  else if entries.all (fun e => (e.2.1).isTF) then
    let timelist := entries.map (fun e => ETime.fin e.1) ++ [tEnd]
    .ok (.tf (.piecewise timelist (entries.map (fun e => (e.2.1).getCF))),
         .tf (.piecewise timelist (entries.map (fun e => (e.2.2).getCF))))
  else if entries.all (fun e => (e.2.1).isArr) then
    .ok (.arr (entries.map (fun e => (e.2.1).getArr)).flatten,
         .arr (entries.map (fun e => (e.2.2).getArr)).flatten)
  else .error .typeMixture

/-- Source `DriveTerm.generate_fn`. -/
def generate_fn (trig : ℚ → ℚ × ℚ) (solverJax : Bool) (dt : DriveTerm)
    (frame_frequency : ℚ) (drive_base : CC) (rwa : Bool) :
    Except Err (Coef × Coef) :=
  match walk trig rwa solverJax frame_frequency drive_base dt.constant_phase dt.sequence
      none 0 0 [] with
  | .error e => .error e
  | .ok (entries, tEnd) => mergeFunclist entries tEnd

/-- The walk of `DriveTerm.generate_fn` with the Python object state
threaded explicitly: every statement of the loop body reads the
`DriveTerm` (`self.constant_phase` at each amplitude step) and the
returned object component records the attribute state after each
statement.  No statement of `generate_fn` assigns to an attribute, which
is what the frame claim is about. -/
def walkObj (trig : ℚ → ℚ × ℚ) (rwa solverJax : Bool) (frame_frequency : ℚ)
    (drive_base : CC) :
    List Instruction → DriveTerm → Option ℚ → ℚ → ℚ → List Entry →
    Except Err (List Entry × ETime) × DriveTerm
  | [], dt, _, _, time, funclist => (.ok (funclist, .fin time), dt)
  | inst :: rest, dt, frequency, phase_offset, time, funclist =>
    match inst with
    | .shiftFrequency v =>
      match frequency with
      | none => (.error .shiftFreqBeforeSet, dt)
      | some f => walkObj trig rwa solverJax frame_frequency drive_base rest dt
          (some (f + v)) phase_offset time funclist
    | .shiftPhase v =>
      walkObj trig rwa solverJax frame_frequency drive_base rest dt frequency
        (phase_offset + v) time funclist
    | .setFrequency v =>
      walkObj trig rwa solverJax frame_frequency drive_base rest dt (some v)
        phase_offset time funclist
    | .setPhase v =>
      match frequency with
      | none => (.error .setPhaseBeforeSet, dt)
      | some f => walkObj trig rwa solverJax frame_frequency drive_base rest dt
          frequency (v - f * time) time funclist
    | .delay v =>
      walkObj trig rwa solverJax frame_frequency drive_base rest dt frequency
        phase_offset (time + v)
        (funclist ++ [(time, .tf (.const ⟨0, 0⟩), .tf (.const ⟨0, 0⟩))])
    | .amp a =>
      match frequency with
      | none => (.error .pulseBeforeSet, dt)
      | some f =>
        let a2 := staticEval a
        match generate_single rwa solverJax a2 f frame_frequency
            (drive_base * cexpNeg trig phase_offset) time dt.constant_phase with
        | .error e => (.error e, dt)
        | .ok (fn_x, fn_y) =>
          match a2 with
          | .pulse d _ => walkObj trig rwa solverJax frame_frequency drive_base rest dt
              frequency phase_offset (time + d) (funclist ++ [(time, fn_x, fn_y)])
          | _ => (.ok (funclist ++ [(time, fn_x, fn_y)], .inf), dt)

/-- Source `DriveTerm.generate_fn` with the object state threaded through the
call, pairing the raised-or-returned value with the object afterwards. -/
def generate_fnObj (trig : ℚ → ℚ × ℚ) (solverJax : Bool) (dt : DriveTerm)
    (frame_frequency : ℚ) (drive_base : CC) (rwa : Bool) :
    Except Err (Coef × Coef) × DriveTerm :=
  match walkObj trig rwa solverJax frame_frequency drive_base dt.sequence dt
      none 0 0 [] with
  | (.error e, dt2) => (.error e, dt2)
  | (.ok (entries, tEnd), dt2) => (mergeFunclist entries tEnd, dt2)

/-! ### `qudit_sim/utils.py`: `matrix_ufunc` -/

/-- The module-level flag guarding the diagnostic capture in
`qudit_sim/utils.py`. -/
def SAVE_ERRORS : Bool := true

/-- Failure of `np.linalg.eig` / `np.linalg.eigh` (non-convergence). -/
inductive EigErr where
  | noConvergence
deriving DecidableEq, Repr

/-- Source `matrix_ufunc` of `qudit_sim/utils.py`.  Here `mat : B → Matrix n n K` is
the batch of square matrices (leading numpy axes collapsed into the
batch index `B`).  The eigendecomposition is the external collaborator
`np.linalg.eig`/`eigh`; its outcome is the `eigResult` argument (the
`hermitian` flag only selects which numpy routine produced it).  On
failure the whole batch is written to an h5 file when `SAVE_ERRORS` is
set — modelled as the first component of the result, the list of saved
batches — and the exception is re-raised.  On success the function forms
`eigrows` as the conjugate transpose of `eigcols`, scales the columns of
`eigcols` by `op(eigenvalues)` (the broadcast
`eigcols * op_eigvals[..., None, :]`), and multiplies. -/
def matrix_ufunc {B n K : Type} [Fintype n] [CommRing K] [StarRing K]
    (op : K → K) (mat : B → Matrix n n K) (with_diagonals : Bool)
    (eigResult : Except EigErr ((B → n → K) × (B → Matrix n n K))) :
    List (B → Matrix n n K) × Except EigErr ((B → Matrix n n K) × Option (B → n → K)) :=
  match eigResult with
  | .error e => ((if SAVE_ERRORS then [mat] else []), .error e)
  | .ok (eigvals, eigcols) =>
    let eigrows := fun b => (eigcols b).conjTranspose
    let op_eigvals := fun b i => op (eigvals b i)
    let op_mat := fun b =>
      (Matrix.of fun i j => eigcols b i j * op_eigvals b j) * eigrows b
    ([], .ok (op_mat, if with_diagonals then some op_eigvals else none))

/-! ### `qudit_sim/heff/common.py`: `get_ilogus_and_valid_it` -/

/-- The IEEE-754 double closest to π, the exact value of `np.pi`. -/
def npPi : ℚ := 884279719003555 / 281474976710656

/-- The branch-cut margin hardcoded in `get_ilogus_and_valid_it`
(`margin = 0.1`; the 5.6e-18 gap between the decimal and its double is
irrelevant to every statement here). -/
def margin : ℚ := 1 / 10

/-- Numpy `np.amin(row)` for one time slice of `ilogvs` (numpy rejects an
empty slice; a matrix has at least one eigenvalue, and both sides of the
claim use this same total model). -/
def rowMin : List ℚ → ℚ
  | [] => 0
  | x :: xs => xs.foldl min x

/-- Numpy `np.amax(row)` for one time slice of `ilogvs`. -/
def rowMax : List ℚ → ℚ
  | [] => 0
  | x :: xs => xs.foldl max x

/-- The first element of `np.asarray(cond).nonzero()[0]`: the index of
the first entry satisfying `p`, if any. -/
def firstTrue {α : Type} (p : α → Bool) : List α → Option Nat
  | [] => none
  | x :: xs => if p x then some 0 else (firstTrue p xs).map (· + 1)

/-- Statement `if len(hits_minus_pi) != 0: last_valid_it = min(last_valid_it, hits_minus_pi[0])`. -/
def hitMin (lv : Nat) : Option Nat → Nat
  | some i => min lv i
  | none => lv

/-- The `last_valid_it` computation of `get_ilogus_and_valid_it`:
starting from `N = ilogvs.shape[0]`, for each of the two extremal-branch
trajectories (`np.amin(ilogvs, axis=1)` and `-np.amax(ilogvs, axis=1)`),
if some time index satisfies `ilogv_ext < -np.pi + margin`, take the
minimum with the first such index.  `ilogvs` is the matrix of
eigenvalue phases, time-major. -/
def last_valid_it (ilogvs : List (List ℚ)) : Nat :=
  let exts := [ilogvs.map rowMin, ilogvs.map fun r => -(rowMax r)]
  exts.foldl
    (fun lv ext => hitMin lv (firstTrue (fun v => decide (v < -npPi + margin)) ext))
    ilogvs.length

/-! ### `qudit_sim/heff/inspection.py`: the selection step of
`inspect_iterative_fit` (lines 97-106 and 159-161)

The per-iteration numpy rows are modelled as index functions
`Nat → _` on the basis indices `0 .. basis_size - 1`, matching the numpy
elementwise broadcasting; `heff_coeffs[it]` stays a list because
`np.amax(..., axis=1)` reduces over it. -/

/-- Numpy `np.amax(np.abs(row))` over one iteration row of `heff_coeffs`
(total model: 0 on the empty row, which numpy rejects). -/
def maxAbs (l : List ℚ) : ℚ := l.foldl (fun m x => max m |x|) 0

/-- One row of `coeff_ratio`: `np.divide(np.abs(coeffs), max_heff_coeff,
out=zeros, where=(max_heff_coeff > 0.))`. -/
def coeff_ratio (heffRow : List ℚ) (coeff : Nat → ℚ) (i : Nat) : ℚ :=
  if 0 < maxAbs heffRow then |coeff i| / maxAbs heffRow else 0

/-- One row of `is_update_candidate`:
`success & (com < max_com)`, and for every iteration index other than 0
additionally `&= (coeff_ratio > min_coeff_ratio) | (last_valid_it != tlist.shape[0])`. -/
def is_update_candidate (it : Nat) (success : Nat → Bool) (com : Nat → ℚ)
    (max_com : ℚ) (ratio : Nat → ℚ) (min_coeff_ratio : ℚ)
    (lastValid tlistLen : Nat) (i : Nat) : Bool :=
  (success i && decide (com i < max_com)) &&
    (if it = 0 then true
     else decide (min_coeff_ratio < ratio i) || decide (lastValid ≠ tlistLen))

/-- One entry of `np.where(is_update_candidate, -np.abs(coeffs), 0.)`. -/
def sortKey (cand : Nat → Bool) (coeff : Nat → ℚ) (i : Nat) : ℚ :=
  if cand i then -|coeff i| else 0

/-- Numpy `np.argsort` over one row of keys: the basis indices ordered by
nondecreasing key.  The default numpy sort is an unspecified-tie-order
comparison sort; it is modelled by a sort, and every theorem about it
assumes the keys that matter are distinct, which makes the tie order
irrelevant. -/
def argsort (n : Nat) (key : Nat → ℚ) : List Nat :=
  (List.range n).insertionSort (fun i j => key i ≤ key j)

/-- Statement `num_candidates = min(num_update_per_iteration, np.count_nonzero(is_update_candidate[iloop]))`. -/
def num_candidates (n cap : Nat) (cand : Nat → Bool) : Nat :=
  min cap ((List.range n).countP cand)

/-- Statement `selected = update_indices[iloop, :num_candidates]`. -/
def selected (n cap : Nat) (cand : Nat → Bool) (coeff : Nat → ℚ) : List Nat :=
  (argsort n (sortKey cand coeff)).take (num_candidates n cap cand)

/-! ## Helper lemmas -/

theorem CC.mul_cc_one (a : CC) : a * (⟨1, 0⟩ : CC) = a := by
  cases a
  simp only [CC.mul_def, CC.mk.injEq]
  constructor <;> ring

/-- A concrete cosine/sine table used by the concrete instantiations:
any model of the float `cos`/`sin` satisfying `trig 0 = (1, 0)`. -/
def trigZero : ℚ → ℚ × ℚ := fun _ => (1, 0)

/-- Lemma: `walkObj` never writes an attribute of the drive term: the threaded
object is returned unchanged whatever the walk does. -/
theorem walkObj_snd (trig : ℚ → ℚ × ℚ) (rwa solverJax : Bool) (frame_frequency : ℚ)
    (drive_base : CC) (seq : List Instruction) (dt : DriveTerm) (frequency : Option ℚ)
    (phase_offset time : ℚ) (funclist : List Entry) :
    (walkObj trig rwa solverJax frame_frequency drive_base seq dt frequency phase_offset
      time funclist).2 = dt := by
  induction seq generalizing frequency phase_offset time funclist with
  | nil => rfl
  | cons inst rest ih =>
    cases inst with
    | shiftFrequency v =>
      cases frequency with
      | none => rfl
      | some f => exact ih _ _ _ _
    | shiftPhase v => exact ih _ _ _ _
    | setFrequency v => exact ih _ _ _ _
    | setPhase v =>
      cases frequency with
      | none => rfl
      | some f => exact ih _ _ _ _
    | delay v => exact ih _ _ _ _
    | amp a =>
      cases frequency with
      | none => rfl
      | some f =>
        simp only [walkObj]
        rcases generate_single rwa solverJax (staticEval a) f frame_frequency
            (drive_base * cexpNeg trig phase_offset) time dt.constant_phase with e | ⟨fn_x, fn_y⟩
        · rfl
        · rcases staticEval a with z | nm | ⟨st, stc⟩ | xs | ⟨dur, pid⟩ | fid
          · rfl
          · rfl
          · rfl
          · rfl
          · exact ih _ _ _ _
          · rfl


theorem firstTrue_map {α β : Type} (f : α → β) (p : β → Bool) (l : List α) :
    firstTrue p (l.map f) = firstTrue (fun x => p (f x)) l := by
  induction l with
  | nil => rfl
  | cons x xs ih => simp [firstTrue, ih]

theorem hitMin_zero (o : Option Nat) : hitMin 0 o = 0 := by
  cases o <;> simp [hitMin]

theorem hitMin_succ (n : Nat) (o : Option Nat) :
    hitMin (n + 1) (o.map (· + 1)) = hitMin n o + 1 := by
  cases o <;> simp [hitMin, Nat.succ_min_succ]

/-- Taking the running minimum of the first hits of the two branches, starting
from the series length, equals the first index at which either branch
hits, defaulting to the length. -/
theorem hitMin_two {α : Type} (l : List α) (p q : α → Bool) :
    hitMin (hitMin l.length (firstTrue p l)) (firstTrue q l)
      = (firstTrue (fun x => p x || q x) l).getD l.length := by
  induction l with
  | nil => rfl
  | cons x xs ih =>
    by_cases hp : p x
    · have h1 : firstTrue p (x :: xs) = some 0 := by simp [firstTrue, hp]
      have h3 : firstTrue (fun y => p y || q y) (x :: xs) = some 0 := by
        simp [firstTrue, hp]
      rw [h1, h3]
      show hitMin (min (xs.length + 1) 0) (firstTrue q (x :: xs)) = 0
      rw [Nat.min_zero]
      exact hitMin_zero _
    · have h1 : firstTrue p (x :: xs) = (firstTrue p xs).map (· + 1) := by
        simp [firstTrue, hp]
      by_cases hq : q x
      · have h2 : firstTrue q (x :: xs) = some 0 := by simp [firstTrue, hq]
        have h3 : firstTrue (fun y => p y || q y) (x :: xs) = some 0 := by
          simp [firstTrue, hp, hq]
        rw [h1, h2, h3]
        show min (hitMin (xs.length + 1) ((firstTrue p xs).map (· + 1))) 0 = 0
        exact Nat.min_zero _
      · have h2 : firstTrue q (x :: xs) = (firstTrue q xs).map (· + 1) := by
          simp [firstTrue, hq]
        have h3 : firstTrue (fun y => p y || q y) (x :: xs)
            = (firstTrue (fun y => p y || q y) xs).map (· + 1) := by
          simp [firstTrue, hp, hq]
        rw [h1, h2, h3]
        show hitMin (hitMin (xs.length + 1) ((firstTrue p xs).map (· + 1)))
            ((firstTrue q xs).map (· + 1)) = _
        rw [hitMin_succ, hitMin_succ, ih]
        cases firstTrue (fun y => p y || q y) xs <;> simp

/-- Claim C2: for every matrix of eigenvalue phase trajectories,
`last_valid_it` equals the earliest time index at which either the
per-time minimum phase, or the per-time maximum phase sign-flipped,
drops within the 0.1 margin of `-π`, and equals the series length when
neither ever does; in particular a min-phase trajectory first crossing
`-π + 0.05` at index 7 gives `last_valid_it = 7`. -/
theorem c2_last_valid_it_earliest_branch_cut :
    (∀ ilogvs : List (List ℚ),
      last_valid_it ilogvs
        = (firstTrue
            (fun row => decide (rowMin row < -npPi + margin)
              || decide (-(rowMax row) < -npPi + margin)) ilogvs).getD ilogvs.length)
    ∧ last_valid_it [[0], [0], [0], [0], [0], [0], [0], [-npPi + 1/20], [0]] = 7 := by
  constructor
  · intro ilogvs
    show hitMin (hitMin ilogvs.length
          (firstTrue (fun v => decide (v < -npPi + margin)) (ilogvs.map rowMin)))
        (firstTrue (fun v => decide (v < -npPi + margin)) (ilogvs.map fun r => -(rowMax r)))
      = _
    rw [firstTrue_map, firstTrue_map]
    exact hitMin_two ilogvs _ _
  · decide

/-! ## Claims -/

/-- Claim C10: whenever `DriveTerm.__init__` is called with a non-`None`
`sequence` argument and the construction succeeds, the stored
`constant_phase` attribute is `None`, whatever `constant_phase` argument
was passed. -/
theorem c10_init_with_sequence_discards_constant_phase (frequency : Option ℚ)
    (amplitude : Option Amp) (constant_phase : Option ℚ) (s : List Instruction)
    (dt : DriveTerm)
    (h : DriveTerm.init frequency amplitude constant_phase (some s) = .ok dt) :
    dt.constant_phase = none := by
  cases frequency with
  | none =>
    simp only [DriveTerm.init] at h
    cases h
    rfl
  | some f =>
    cases s with
    | nil => exact Except.noConfusion h
    | cons i0 rest =>
      simp only [DriveTerm.init] at h
      by_cases hi : i0.isSetFrequency = true
      · rw [if_pos hi] at h
        cases h
        rfl
      · rw [if_neg hi] at h
        cases h
        rfl

/-- Witness for C10 at a concrete input: a term built from an explicit
sequence with `constant_phase = 3` stores `constant_phase = None`. -/
theorem c10_witness :
    DriveTerm.init none none (some 3) (some [.delay 1]) = .ok ⟨[.delay 1], none⟩ ∧
      (⟨[.delay 1], none⟩ : DriveTerm).constant_phase = none :=
  ⟨rfl, c10_init_with_sequence_discards_constant_phase none none (some 3) [.delay 1] _ rfl⟩

/-- Claim C9: `generate_fn` does not mutate the drive term — the object
state after the call equals the state before, for every frame frequency,
drive base and `rwa` flag — and therefore calling it a second time on
the term it left behind gives the same result as the first call. -/
theorem c9_generate_fn_does_not_mutate (trig : ℚ → ℚ × ℚ) (solverJax : Bool)
    (dt : DriveTerm) (frame_frequency : ℚ) (drive_base : CC) (rwa : Bool) :
    (generate_fnObj trig solverJax dt frame_frequency drive_base rwa).2 = dt ∧
      generate_fnObj trig solverJax
          (generate_fnObj trig solverJax dt frame_frequency drive_base rwa).2
          frame_frequency drive_base rwa
        = generate_fnObj trig solverJax dt frame_frequency drive_base rwa := by
  have hsnd : ∀ dt' : DriveTerm,
      (generate_fnObj trig solverJax dt' frame_frequency drive_base rwa).2 = dt' := by
    intro dt'
    have hw := walkObj_snd trig rwa solverJax frame_frequency drive_base dt'.sequence dt'
      none 0 0 []
    simp only [generate_fnObj]
    rcases hwalk : walkObj trig rwa solverJax frame_frequency drive_base dt'.sequence dt'
        none 0 0 [] with ⟨r, dt2⟩
    rw [hwalk] at hw
    rcases r with e | ⟨entries, tEnd⟩
    · exact hw
    · exact hw
  refine ⟨hsnd dt, ?_⟩
  rw [hsnd dt]

/-- Claim C8: when the eigendecomposition inside `matrix_ufunc` fails,
the offending matrix batch is captured for post-mortem inspection and
the failure propagates: the function never returns a result. -/
theorem c8_matrix_ufunc_failure_capture {B n K : Type} [Fintype n] [CommRing K]
    [StarRing K] (op : K → K) (mat : B → Matrix n n K) (with_diagonals : Bool)
    (e : EigErr) :
    (matrix_ufunc op mat with_diagonals (.error e)).2 = .error e ∧
      mat ∈ (matrix_ufunc op mat with_diagonals (.error e)).1 := by
  constructor
  · rfl
  · show mat ∈ (if SAVE_ERRORS then [mat] else [])
    simp [SAVE_ERRORS]

/-- Claim C7: on a batch of normal matrices — i.e. given the
eigendecomposition contract `mat b = V b ⬝ diag (d b) ⬝ (V b)ᴴ` with
unitary `V b` that the caller of `np.linalg.eig` assumes —
`matrix_ufunc` computes `V ⬝ diag (op eigvals) ⬝ V⁻¹` per matrix, and
with `op` the identity it returns the input batch unchanged. -/
theorem c7_matrix_ufunc_eigen_decomposition {B n K : Type} [Fintype n] [DecidableEq n]
    [CommRing K] [StarRing K] (op : K → K) (with_diagonals : Bool)
    (mat : B → Matrix n n K) (d : B → n → K) (V : B → Matrix n n K)
    (hunit : ∀ b, V b * (V b).conjTranspose = 1)
    (hmat : ∀ b, mat b = V b * Matrix.diagonal (d b) * (V b).conjTranspose) :
    (matrix_ufunc op mat with_diagonals (.ok (d, V))).2
        = .ok (fun b => V b * Matrix.diagonal (fun i => op (d b i)) * (V b)⁻¹,
               if with_diagonals then some (fun b i => op (d b i)) else none) ∧
      (matrix_ufunc id mat with_diagonals (.ok (d, V))).2
        = .ok (mat, if with_diagonals then some d else none) := by
  have hscale : ∀ (g : n → K) (b : B),
      (Matrix.of fun i j => V b i j * g j) = V b * Matrix.diagonal g := by
    intro g b
    ext i j
    rw [Matrix.mul_diagonal]
    rfl
  have hinv : ∀ b, (V b)⁻¹ = (V b).conjTranspose := fun b =>
    Matrix.inv_eq_right_inv (hunit b)
  constructor
  · refine congrArg Except.ok (Prod.ext (funext fun b => ?_) rfl)
    show (Matrix.of fun i j => V b i j * op (d b j)) * (V b).conjTranspose
        = V b * Matrix.diagonal (fun i => op (d b i)) * (V b)⁻¹
    rw [hscale (fun j => op (d b j)) b, hinv b]
  · refine congrArg Except.ok (Prod.ext (funext fun b => ?_) rfl)
    show (Matrix.of fun i j => V b i j * d b j) * (V b).conjTranspose = mat b
    rw [hscale (d b) b, ← hmat b]

/-- Witness for C7 at a concrete input: the identity eigenbasis on a
one-dimensional batch. -/
theorem c7_witness :
    (∀ _ : Unit, (1 : Matrix (Fin 1) (Fin 1) ℚ) * (1 : Matrix (Fin 1) (Fin 1) ℚ).conjTranspose = 1) ∧
      (matrix_ufunc id (fun _ : Unit => (1 : Matrix (Fin 1) (Fin 1) ℚ) *
            Matrix.diagonal (fun _ => (5 : ℚ)) * (1 : Matrix (Fin 1) (Fin 1) ℚ).conjTranspose)
          false (.ok (fun _ _ => (5 : ℚ), fun _ => 1))).2
        = .ok ((fun _ : Unit => (1 : Matrix (Fin 1) (Fin 1) ℚ) *
            Matrix.diagonal (fun _ => (5 : ℚ)) * (1 : Matrix (Fin 1) (Fin 1) ℚ).conjTranspose),
            none) := by
  have h1 : ∀ _ : Unit,
      (1 : Matrix (Fin 1) (Fin 1) ℚ) * (1 : Matrix (Fin 1) (Fin 1) ℚ).conjTranspose = 1 := by
    intro _
    rw [Matrix.conjTranspose_one, Matrix.mul_one]
  exact ⟨h1,
    (c7_matrix_ufunc_eigen_decomposition id false _ (fun _ _ => (5 : ℚ)) (fun _ => 1) h1
      (fun b => rfl)).2⟩

/-- Claim C5, counterexample: a sampled-array amplitude is indefinite in
the code.  In the sequence `[SetFrequency 1, <array>, Delay 1]` (compiled
at resonance so the array survives as an array), the walk stops at the
array: the final time is `np.inf` and the trailing `Delay` contributes no
interval — contradicting the claim that an array amplitude does not
terminate the walk. -/
theorem c5_counterexample_array_is_indefinite :
    walk trigZero true false 1 ⟨1, 0⟩ none
        [.setFrequency 1, .amp (.arr [⟨1, 0⟩]), .delay 1] none 0 0 []
      = .ok ([(0, .arr [1], .arr [0])], .inf) := rfl

/-- Claim C5 (amended): a pulse instruction whose amplitude is a
finite-duration `Pulse` advances elapsed time by its duration and the
walk continues with the next instruction; every amplitude that is not a
`Pulse` — sampled arrays included — is indefinite: the walk returns with
the terminal time `np.inf` and the remaining instructions are never
processed. -/
theorem c5_amended_only_pulse_advances (trig : ℚ → ℚ × ℚ) (rwa solverJax : Bool)
    (frame_frequency : ℚ) (drive_base : CC) (constant_phase : Option ℚ)
    (rest : List Instruction) (f phase_offset time : ℚ) (funclist : List Entry) :
    (∀ (d : ℚ) (pid : Nat) (x y : Coef),
      generate_single rwa solverJax (.pulse d pid) f frame_frequency
          (drive_base * cexpNeg trig phase_offset) time constant_phase = .ok (x, y) →
      walk trig rwa solverJax frame_frequency drive_base constant_phase
          (.amp (.pulse d pid) :: rest) (some f) phase_offset time funclist
        = walk trig rwa solverJax frame_frequency drive_base constant_phase rest (some f)
            phase_offset (time + d) (funclist ++ [(time, x, y)]))
    ∧ (∀ (a : Amp) (x y : Coef), (staticEval a).isPulse = false →
      generate_single rwa solverJax (staticEval a) f frame_frequency
          (drive_base * cexpNeg trig phase_offset) time constant_phase = .ok (x, y) →
      walk trig rwa solverJax frame_frequency drive_base constant_phase
          (.amp a :: rest) (some f) phase_offset time funclist
        = .ok (funclist ++ [(time, x, y)], .inf)) := by
  constructor
  · intro d pid x y h
    simp only [walk, staticEval]
    rw [h]
  · intro a x y hp h
    rcases hsa : staticEval a with z | nm | ⟨st, stc⟩ | xs | ⟨d, pid⟩ | fid <;>
      rw [hsa] at h hp
    · simp only [walk, hsa]
      rw [h]
    · simp only [walk, hsa]
      rw [h]
    · simp only [walk, hsa]
      rw [h]
    · simp only [walk, hsa]
      rw [h]
    · exact absurd hp (by simp [Amp.isPulse])
    · simp only [walk, hsa]
      rw [h]

/-- Witness for C5 (amended) at a concrete input: the array amplitude of
the counterexample sequence. -/
theorem c5_amended_witness :
    (staticEval (.arr [⟨1, 0⟩])).isPulse = false ∧
      generate_single true false (staticEval (.arr [⟨1, 0⟩])) 1 1
          (CC.mk 1 0 * cexpNeg trigZero 0) 0 none = .ok (.arr [1], .arr [0]) ∧
      walk trigZero true false 1 ⟨1, 0⟩ none [.amp (.arr [⟨1, 0⟩]), .delay 1] (some 1) 0 0 []
        = .ok ([(0, .arr [1], .arr [0])], .inf) :=
  ⟨rfl, rfl,
    (c5_amended_only_pulse_advances trigZero true false 1 ⟨1, 0⟩ none [.delay 1] 1 0 0 []).2
      (.arr [⟨1, 0⟩]) (.arr [1]) (.arr [0]) rfl rfl⟩

/-- Claim C6, counterexample: the sequence `[SetFrequency 1, Delay 1]`
yields zero amplitude-bearing intervals (no pulse or drive instruction is
processed), yet `generate_fn` does not raise: it returns the silent zero
coefficients of the delay. -/
theorem c6_counterexample_delay_only_sequence :
    generate_fn trigZero false ⟨[.setFrequency 1, .delay 1], none⟩ 0 ⟨1, 0⟩ true
      = .ok (.tf (.const ⟨0, 0⟩), .tf (.const ⟨0, 0⟩)) := rfl

/-- Claim C6 (amended): `generate_fn` raises the fatal
`No drive amplitude specified` error exactly when the walk produced no
interval at all — neither an amplitude-bearing interval nor a silent
delay interval.  A sequence whose intervals all come from delays
compiles without error. -/
theorem c6_amended_no_amplitude_error_iff_no_intervals (trig : ℚ → ℚ × ℚ)
    (solverJax : Bool) (dt : DriveTerm) (frame_frequency : ℚ) (drive_base : CC)
    (rwa : Bool) (entries : List Entry) (tEnd : ETime)
    (hw : walk trig rwa solverJax frame_frequency drive_base dt.constant_phase dt.sequence
        none 0 0 [] = .ok (entries, tEnd)) :
    generate_fn trig solverJax dt frame_frequency drive_base rwa
        = .error .noDriveAmplitude
      ↔ entries = [] := by
  simp only [generate_fn]
  rw [hw]
  constructor
  · intro h
    rcases entries with _ | ⟨e, es⟩
    · rfl
    · exfalso
      simp only [mergeFunclist] at h
      rw [if_neg (by simp)] at h
      split_ifs at h
      all_goals
        first
          | exact Except.noConfusion h
          | (injection h with h2; exact Err.noConfusion h2)
  · intro h
    subst h
    rfl

/-- Witness for C6 (amended) at a concrete input: a sequence with no
interval-producing instruction raises the no-amplitude error. -/
theorem c6_amended_witness :
    walk trigZero true false 0 ⟨1, 0⟩ none [.setFrequency 1] none 0 0 []
        = .ok ([], .fin 0) ∧
      (generate_fn trigZero false ⟨[.setFrequency 1], none⟩ 0 ⟨1, 0⟩ true
          = .error .noDriveAmplitude
        ↔ ([] : List Entry) = []) :=
  ⟨rfl, c6_amended_no_amplitude_error_iff_no_intervals trigZero false
    ⟨[.setFrequency 1], none⟩ 0 ⟨1, 0⟩ true [] (.fin 0) rfl⟩

/-- Claim C3: under RWA at exact literal resonance
(`frequency = frame_frequency`), a constant (float/complex literal)
amplitude produces the static envelope split: the X and Y coefficients
are the real and imaginary parts of
`drive_base * exp(-i phase_offset) * amplitude` — plain numbers, with no
oscillatory factor and no time dependence — and for the canonical
single-pulse term (phase offset 0) the output is
`(Re(drive_base * amplitude), Im(drive_base * amplitude))`. -/
theorem c3_rwa_resonant_constant_amplitude (trig : ℚ → ℚ × ℚ) (solverJax : Bool)
    (drive_base : CC) (phase_offset tzero : ℚ) (constant_phase : Option ℚ) (z : CC)
    (f : ℚ) (htrig : trig 0 = (1, 0)) :
    generate_single_rwa solverJax (.const z) f f (drive_base * cexpNeg trig phase_offset)
        tzero constant_phase
      = .ok (.num (drive_base * cexpNeg trig phase_offset * z).re,
             .num (drive_base * cexpNeg trig phase_offset * z).im)
    ∧ generate_fn trig solverJax ⟨[.setFrequency f, .amp (.const z)], constant_phase⟩ f
        drive_base true
      = .ok (.num (drive_base * z).re, .num (drive_base * z).im) := by
  have hres : isclose0 (f - f) = true := by rw [sub_self]; decide
  have hsingle : ∀ (b : CC) (t : ℚ),
      generate_single_rwa solverJax (.const z) f f b t constant_phase
        = .ok (.num (b * z).re, .num (b * z).im) := by
    intro b t
    simp only [generate_single_rwa, hres, if_true]
    rw [CC.mul_comm z b]
  have hcex : cexpNeg trig 0 = ⟨1, 0⟩ := by
    simp [cexpNeg, htrig]
  constructor
  · exact hsingle _ _
  · simp only [generate_fn, walk, staticEval, generate_single, if_true]
    rw [hcex, CC.mul_cc_one, hsingle drive_base 0]
    rfl

/-- Witness for C3 at a concrete input: amplitude `2`, drive base `3`,
frequency = frame frequency = 1, zero phase. -/
theorem c3_witness :
    trigZero 0 = (1, 0) ∧
      generate_fn trigZero false ⟨[.setFrequency 1, .amp (.const ⟨2, 0⟩)], none⟩ 1
          ⟨3, 0⟩ true
        = .ok (.num ((⟨3, 0⟩ : CC) * ⟨2, 0⟩).re, .num ((⟨3, 0⟩ : CC) * ⟨2, 0⟩).im) :=
  ⟨rfl, (c3_rwa_resonant_constant_amplitude trigZero false ⟨3, 0⟩ 0 0 none ⟨2, 0⟩ 1 rfl).2⟩

theorem Coef.isTF_iff_kind (c : Coef) : c.isTF = true ↔ c.kind = .tf := by
  cases c <;> simp [Coef.isTF, Coef.kind]

theorem Coef.isArr_iff_kind (c : Coef) : c.isArr = true ↔ c.kind = .arr := by
  cases c <;> simp [Coef.isArr, Coef.kind]

/-- Both generators return a kind-homogeneous coefficient pair: the X
and Y coefficients produced for one amplitude always have the same
runtime category. -/
theorem generate_single_rwa_kind_eq (solverJax : Bool) (a : Amp) (f ff : ℚ) (b : CC)
    (t : ℚ) (cp : Option ℚ) (x y : Coef)
    (h : generate_single_rwa solverJax a f ff b t cp = .ok (x, y)) : x.kind = y.kind := by
  cases a <;> cases cp <;>
    simp only [generate_single_rwa, Except.ok.injEq, Prod.mk.injEq] at h <;>
    first
      | exact Except.noConfusion h
      | (split_ifs at h <;> (obtain ⟨rfl, rfl⟩ := h; rfl))

theorem generate_single_full_kind_eq (solverJax : Bool) (a : Amp) (f ff : ℚ) (b : CC)
    (t : ℚ) (cp : Option ℚ) (x y : Coef)
    (h : generate_single_full solverJax a f ff b t cp = .ok (x, y)) : x.kind = y.kind := by
  cases a <;> cases cp <;>
    simp only [generate_single_full, Except.ok.injEq, Prod.mk.injEq] at h <;>
    first
      | exact Except.noConfusion h
      | (split_ifs at h <;> (obtain ⟨rfl, rfl⟩ := h; rfl))

theorem generate_single_kind_eq (rwa solverJax : Bool) (a : Amp) (f ff : ℚ) (b : CC)
    (t : ℚ) (cp : Option ℚ) (x y : Coef)
    (h : generate_single rwa solverJax a f ff b t cp = .ok (x, y)) : x.kind = y.kind := by
  by_cases hr : rwa = true
  · rw [generate_single, if_pos hr] at h
    exact generate_single_rwa_kind_eq solverJax a f ff b t cp x y h
  · rw [generate_single, if_neg hr] at h
    exact generate_single_full_kind_eq solverJax a f ff b t cp x y h

/-- Every `funclist` entry the walk emits is kind-homogeneous. -/
theorem walk_kind_eq (trig : ℚ → ℚ × ℚ) (rwa solverJax : Bool) (ff : ℚ) (db : CC)
    (cp : Option ℚ) :
    ∀ (seq : List Instruction) (freq : Option ℚ) (φ t : ℚ) (acc : List Entry)
      (entries : List Entry) (tEnd : ETime),
      (∀ e ∈ acc, (e.2.1).kind = (e.2.2).kind) →
      walk trig rwa solverJax ff db cp seq freq φ t acc = .ok (entries, tEnd) →
      ∀ e ∈ entries, (e.2.1).kind = (e.2.2).kind := by
  intro seq
  induction seq with
  | nil =>
    intro freq φ t acc entries tEnd hacc hw
    simp only [walk, Except.ok.injEq, Prod.mk.injEq] at hw
    obtain ⟨h1, -⟩ := hw
    subst h1
    exact hacc
  | cons inst rest ih =>
    intro freq φ t acc entries tEnd hacc hw
    cases inst with
    | shiftFrequency v =>
      cases freq with
      | none => exact Except.noConfusion hw
      | some f => exact ih _ _ _ _ _ _ hacc hw
    | shiftPhase v => exact ih _ _ _ _ _ _ hacc hw
    | setFrequency v => exact ih _ _ _ _ _ _ hacc hw
    | setPhase v =>
      cases freq with
      | none => exact Except.noConfusion hw
      | some f => exact ih _ _ _ _ _ _ hacc hw
    | delay v =>
      refine ih _ _ _ _ _ _ ?_ hw
      intro e he
      rcases List.mem_append.mp he with h1 | h2
      · exact hacc e h1
      · simp only [List.mem_singleton] at h2
        subst h2
        rfl
    | amp a =>
      cases freq with
      | none => exact Except.noConfusion hw
      | some f =>
        simp only [walk] at hw
        split at hw
        · exact Except.noConfusion hw
        · rename_i fn_x fn_y heq
          have hext : ∀ e ∈ acc ++ [(t, fn_x, fn_y)], (e.2.1).kind = (e.2.2).kind := by
            intro e he
            rcases List.mem_append.mp he with h1 | h2
            · exact hacc e h1
            · simp only [List.mem_singleton] at h2
              subst h2
              exact generate_single_kind_eq rwa solverJax (staticEval a) f ff
                (db * cexpNeg trig φ) t cp fn_x fn_y heq
          split at hw
          · exact ih _ _ _ _ _ _ hext hw
          · simp only [Except.ok.injEq, Prod.mk.injEq] at hw
            obtain ⟨h1, -⟩ := hw
            subst h1
            exact hext

/-- Claim C4: after walking any instruction sequence, `generate_fn`
merges the per-interval results exactly as described: one interval is
returned directly whatever its representation; otherwise all
time-function intervals merge into one piecewise composition; otherwise
all sampled-array intervals are concatenated; any other mixture raises
the fatal type-consistency error and no coefficient is returned. -/
theorem c4_generate_fn_merge_cases (trig : ℚ → ℚ × ℚ) (solverJax : Bool)
    (dt : DriveTerm) (frame_frequency : ℚ) (drive_base : CC) (rwa : Bool)
    (entries : List Entry) (tEnd : ETime)
    (hw : walk trig rwa solverJax frame_frequency drive_base dt.constant_phase dt.sequence
        none 0 0 [] = .ok (entries, tEnd)) :
    (∀ e : Entry, entries = [e] →
      generate_fn trig solverJax dt frame_frequency drive_base rwa = .ok (e.2.1, e.2.2))
    ∧ (entries ≠ [] → entries.length ≠ 1 →
      (∀ e ∈ entries, (e.2.1).isTF = true ∧ (e.2.2).isTF = true) →
      generate_fn trig solverJax dt frame_frequency drive_base rwa
        = .ok (.tf (.piecewise (entries.map (fun e => ETime.fin e.1) ++ [tEnd])
                (entries.map fun e => (e.2.1).getCF)),
               .tf (.piecewise (entries.map (fun e => ETime.fin e.1) ++ [tEnd])
                (entries.map fun e => (e.2.2).getCF))))
    ∧ (entries ≠ [] → entries.length ≠ 1 →
      (∀ e ∈ entries, (e.2.1).isArr = true ∧ (e.2.2).isArr = true) →
      generate_fn trig solverJax dt frame_frequency drive_base rwa
        = .ok (.arr (entries.map fun e => (e.2.1).getArr).flatten,
               .arr (entries.map fun e => (e.2.2).getArr).flatten))
    ∧ (entries ≠ [] → entries.length ≠ 1 →
      ¬(∀ e ∈ entries, (e.2.1).isTF = true ∧ (e.2.2).isTF = true) →
      ¬(∀ e ∈ entries, (e.2.1).isArr = true ∧ (e.2.2).isArr = true) →
      generate_fn trig solverJax dt frame_frequency drive_base rwa
        = .error .typeMixture) := by
  have hgen : generate_fn trig solverJax dt frame_frequency drive_base rwa
      = mergeFunclist entries tEnd := by
    simp only [generate_fn]
    rw [hw]
  have hkind : ∀ e ∈ entries, (e.2.1).kind = (e.2.2).kind :=
    walk_kind_eq trig rwa solverJax frame_frequency drive_base dt.constant_phase
      dt.sequence none 0 0 [] entries tEnd (by intro e he; exact absurd he (by simp)) hw
  refine ⟨?_, ?_, ?_, ?_⟩
  · intro e he
    subst he
    rw [hgen]
    rfl
  · intro hne hlen hTF
    rw [hgen]
    have hall : entries.all (fun e => (e.2.1).isTF) = true :=
      List.all_eq_true.mpr fun e he => (hTF e he).1
    have hlen0 : ¬entries.length = 0 := by
      simpa [List.length_eq_zero] using hne
    simp only [mergeFunclist, if_neg hlen0, if_neg hlen, hall, if_true]
  · intro hne hlen hArr
    rw [hgen]
    rcases entries with _ | ⟨e0, es⟩
    · exact absurd rfl hne
    have hnTF : ¬(e0 :: es).all (fun e => (e.2.1).isTF) = true := by
      intro hall
      have h1 := List.all_eq_true.mp hall e0 (by simp)
      have h2 := (hArr e0 (by simp)).1
      rcases e0 with ⟨t0, x0, y0⟩
      rcases x0 <;> simp_all [Coef.isTF, Coef.isArr]
    have hall : (e0 :: es).all (fun e => (e.2.1).isArr) = true :=
      List.all_eq_true.mpr fun e he => (hArr e he).1
    have hlen0 : ¬(e0 :: es).length = 0 := by simp
    simp only [mergeFunclist, if_neg hlen0, if_neg hlen,
      Bool.not_eq_true, hnTF, hall, if_true]
    simp
  · intro hne hlen hnTF hnArr
    rw [hgen]
    have hnTFg : ¬entries.all (fun e => (e.2.1).isTF) = true := by
      intro hall
      refine hnTF fun e he => ?_
      have hx := List.all_eq_true.mp hall e he
      have hk := hkind e he
      refine ⟨hx, ?_⟩
      rw [Coef.isTF_iff_kind] at hx ⊢
      rw [← hk]
      exact hx
    have hnArrg : ¬entries.all (fun e => (e.2.1).isArr) = true := by
      intro hall
      refine hnArr fun e he => ?_
      have hx := List.all_eq_true.mp hall e he
      have hk := hkind e he
      refine ⟨hx, ?_⟩
      rw [Coef.isArr_iff_kind] at hx ⊢
      rw [← hk]
      exact hx
    have hlen0 : ¬entries.length = 0 := by
      simpa [List.length_eq_zero] using hne
    simp only [mergeFunclist, if_neg hlen0, if_neg hlen]
    rw [if_neg hnTFg, if_neg hnArrg]

/-- Witness for C4 at a concrete input: a two-delay sequence whose two
silent intervals are both time-function objects and merge into a
piecewise composition. -/
theorem c4_witness :
    walk trigZero true false 0 ⟨1, 0⟩ none [.setFrequency 1, .delay 1, .delay 2] none 0 0 []
        = .ok ([(0, .tf (.const ⟨0, 0⟩), .tf (.const ⟨0, 0⟩)),
                (1, .tf (.const ⟨0, 0⟩), .tf (.const ⟨0, 0⟩))], .fin 3) ∧
      generate_fn trigZero false ⟨[.setFrequency 1, .delay 1, .delay 2], none⟩ 0 ⟨1, 0⟩ true
        = .ok (.tf (.piecewise [.fin 0, .fin 1, .fin 3] [.const ⟨0, 0⟩, .const ⟨0, 0⟩]),
               .tf (.piecewise [.fin 0, .fin 1, .fin 3] [.const ⟨0, 0⟩, .const ⟨0, 0⟩])) := by
  refine ⟨rfl, ?_⟩
  have h := (c4_generate_fn_merge_cases trigZero false
      ⟨[.setFrequency 1, .delay 1, .delay 2], none⟩ 0 ⟨1, 0⟩ true
      [(0, .tf (.const ⟨0, 0⟩), .tf (.const ⟨0, 0⟩)),
       (1, .tf (.const ⟨0, 0⟩), .tf (.const ⟨0, 0⟩))] (.fin 3) rfl).2.1
      (by simp) (by simp) (by decide)
  exact h

theorem argsort_perm (n : Nat) (key : Nat → ℚ) : (argsort n key).Perm (List.range n) :=
  List.perm_insertionSort _ _

theorem argsort_sorted (n : Nat) (key : Nat → ℚ) :
    List.Pairwise (fun i j => key i ≤ key j) (argsort n key) := by
  haveI : IsTotal Nat (fun i j => key i ≤ key j) := ⟨fun a b => le_total _ _⟩
  haveI : IsTrans Nat (fun i j => key i ≤ key j) :=
    ⟨fun a b c hab hbc => le_trans hab hbc⟩
  exact List.sorted_insertionSort _ _

theorem argsort_length (n : Nat) (key : Nat → ℚ) : (argsort n key).length = n := by
  rw [(argsort_perm n key).length_eq, List.length_range]

theorem argsort_mem (n : Nat) (key : Nat → ℚ) (i : Nat) :
    i ∈ argsort n key ↔ i < n := by
  rw [(argsort_perm n key).mem_iff, List.mem_range]

/-- Structure of the selection output, for keys where every in-range
candidate carries a nonzero coefficient: the selection has exactly
`min cap (number of candidates)` members, each member is an in-range
candidate, and no unselected candidate beats a selected one in absolute
coefficient. -/
theorem selected_spec (n cap : Nat) (cand : Nat → Bool) (coeff : Nat → ℚ)
    (hneg : ∀ i, i < n → cand i = true → coeff i ≠ 0) :
    (selected n cap cand coeff).length = min cap ((List.range n).countP cand)
    ∧ (∀ i ∈ selected n cap cand coeff, i < n ∧ cand i = true)
    ∧ (∀ i ∈ selected n cap cand coeff, ∀ j, j < n → cand j = true →
        j ∉ selected n cap cand coeff → |coeff j| ≤ |coeff i|) := by
  have hkey_cand : ∀ j, j < n → cand j = true → sortKey cand coeff j < 0 := by
    intro j hj hc
    have h1 : sortKey cand coeff j = -|coeff j| := by simp [sortKey, hc]
    rw [h1, neg_neg_iff_pos]
    exact abs_pos.mpr (hneg j hj hc)
  have hkey_nocand : ∀ j, cand j = false → sortKey cand coeff j = 0 := by
    intro j hc
    simp [sortKey, hc]
  set key := sortKey cand coeff with hkeydef
  set s := argsort n key with hsdef
  set c := (List.range n).countP cand with hcdef
  set k := min cap c with hkdef
  have hkc : k ≤ c := min_le_right _ _
  have hcn : c ≤ n := by
    rw [hcdef]
    calc (List.range n).countP cand ≤ (List.range n).length := List.countP_le_length _
    _ = n := List.length_range n
  have hkn : k ≤ n := le_trans hkc hcn
  have hslen : s.length = n := argsort_length n key
  have hsel : selected n cap cand coeff = s.take k := rfl
  have hcs : List.countP cand s = c := by
    rw [hcdef]
    exact (argsort_perm n key).countP_eq cand
  have hsorted : List.Pairwise (fun i j => key i ≤ key j) s := argsort_sorted n key
  have hmem_n : ∀ i ∈ s, i < n := fun i hi => (argsort_mem n key i).mp hi
  have hlen_take : (s.take k).length = k := by
    rw [List.length_take, hslen, Nat.min_eq_left hkn]
  have hcand_of_mem : ∀ i ∈ s.take k, cand i = true := by
    intro i hi
    by_contra hnc
    have hcfalse : cand i = false := by
      cases h : cand i with
      | false => rfl
      | true => exact absurd h hnc
    obtain ⟨m, hm, hgm⟩ := List.mem_iff_getElem.mp hi
    have hmk : m < k := lt_of_lt_of_le hm (le_of_eq hlen_take)
    have hmn : m < s.length := by
      rw [hslen]
      exact lt_of_lt_of_le hmk hkn
    have hsm : s[m] = i := by
      rw [← hgm, List.getElem_take]
    have hdrop : List.drop m s = i :: List.drop (m + 1) s := by
      rw [List.drop_eq_getElem_cons hmn, hsm]
    have hdrop_sorted : List.Pairwise (fun i j => key i ≤ key j) (List.drop m s) :=
      hsorted.drop
    rw [hdrop] at hdrop_sorted
    have hrest : ∀ j ∈ List.drop (m + 1) s, cand j = false := by
      intro j hj
      have hij : key i ≤ key j := (List.pairwise_cons.mp hdrop_sorted).1 j hj
      cases h : cand j with
      | false => rfl
      | true =>
        exfalso
        have hjn : j < n := hmem_n j (List.mem_of_mem_drop hj)
        have hlt := hkey_cand j hjn h
        rw [hkey_nocand i hcfalse] at hij
        exact absurd (lt_of_le_of_lt hij hlt) (lt_irrefl 0)
    have hdrop_zero : List.countP cand (List.drop m s) = 0 := by
      rw [hdrop, List.countP_cons_of_neg, List.countP_eq_zero.mpr]
      · intro a ha
        rw [hrest a ha]
        exact Bool.false_ne_true
      · rw [hcfalse]
        exact Bool.false_ne_true
    have hsplit : List.countP cand s
        = List.countP cand (List.take m s) + List.countP cand (List.drop m s) := by
      rw [← List.countP_append, List.take_append_drop]
    have htake_le : List.countP cand (List.take m s) ≤ m := by
      calc List.countP cand (List.take m s) ≤ (List.take m s).length :=
            List.countP_le_length _
      _ ≤ m := by
            rw [List.length_take]
            exact min_le_left _ _
    have : c ≤ m := by
      rw [← hcs, hsplit, hdrop_zero, Nat.add_zero]
      exact htake_le
    omega
  refine ⟨by rw [hsel, hlen_take], ?_, ?_⟩
  · intro i hi
    exact ⟨hmem_n i (List.mem_of_mem_take (hsel ▸ hi)), hcand_of_mem i (hsel ▸ hi)⟩
  · intro i hi j hjn hcj hjo
    rw [hsel] at hi hjo
    have hci : cand i = true := hcand_of_mem i hi
    have hin : i < n := hmem_n i (List.mem_of_mem_take hi)
    have hjs : j ∈ s := (argsort_mem n key j).mpr hjn
    have hjdrop : j ∈ List.drop k s := by
      rcases List.mem_append.mp ((List.take_append_drop k s).symm ▸ hjs) with h | h
      · exact absurd h hjo
      · exact h
    have hpw := List.pairwise_append.mp ((List.take_append_drop k s) ▸ hsorted)
    have hij : key i ≤ key j := hpw.2.2 i hi j hjdrop
    have hkeyi : key i = -|coeff i| := by simp [hkeydef, sortKey, hci]
    have hkeyj : key j = -|coeff j| := by simp [hkeydef, sortKey, hcj]
    rw [hkeyi, hkeyj] at hij
    exact neg_le_neg_iff.mp hij

/-- Claim C1: in each iteration of the selection step, a basis element
is an update candidate iff its fit succeeded and its commutation
residual is below `max_com`, with — for every iteration after the
first — the additional requirement that its coefficient ratio exceed
`min_coeff_ratio` or its valid window be shorter than the full time
series; the accepted set is the at-most-`cap` candidates of largest
absolute fitted rate.  The ranking statement assumes that candidate
rates are nonzero and distinct in magnitude, which is what makes the
unspecified tie order of `np.argsort` irrelevant. -/
theorem c1_candidate_and_selection (n it cap : Nat) (max_com min_coeff_ratio : ℚ)
    (lastValid tlistLen : Nat) (success : Nat → Bool) (com coeff : Nat → ℚ)
    (heffRow : List ℚ)
    (hlv : lastValid ≤ tlistLen)
    (hnz : ∀ i, i < n →
      is_update_candidate it success com max_com (coeff_ratio heffRow coeff)
        min_coeff_ratio lastValid tlistLen i = true → coeff i ≠ 0)
    (hinj : ∀ i, i < n → ∀ j, j < n →
      is_update_candidate it success com max_com (coeff_ratio heffRow coeff)
        min_coeff_ratio lastValid tlistLen i = true →
      is_update_candidate it success com max_com (coeff_ratio heffRow coeff)
        min_coeff_ratio lastValid tlistLen j = true →
      i ≠ j → |coeff i| ≠ |coeff j|) :
    (∀ i,
      is_update_candidate it success com max_com (coeff_ratio heffRow coeff)
          min_coeff_ratio lastValid tlistLen i = true
        ↔ (success i = true ∧ com i < max_com ∧
            (it = 0 ∨ min_coeff_ratio < coeff_ratio heffRow coeff i
              ∨ lastValid < tlistLen)))
    ∧ (selected n cap (is_update_candidate it success com max_com
          (coeff_ratio heffRow coeff) min_coeff_ratio lastValid tlistLen) coeff).length
        = min cap ((List.range n).countP (is_update_candidate it success com max_com
            (coeff_ratio heffRow coeff) min_coeff_ratio lastValid tlistLen))
    ∧ (∀ i ∈ selected n cap (is_update_candidate it success com max_com
          (coeff_ratio heffRow coeff) min_coeff_ratio lastValid tlistLen) coeff,
        i < n ∧ is_update_candidate it success com max_com (coeff_ratio heffRow coeff)
          min_coeff_ratio lastValid tlistLen i = true)
    ∧ (∀ i ∈ selected n cap (is_update_candidate it success com max_com
          (coeff_ratio heffRow coeff) min_coeff_ratio lastValid tlistLen) coeff,
        ∀ j, j < n →
        is_update_candidate it success com max_com (coeff_ratio heffRow coeff)
          min_coeff_ratio lastValid tlistLen j = true →
        j ∉ selected n cap (is_update_candidate it success com max_com
          (coeff_ratio heffRow coeff) min_coeff_ratio lastValid tlistLen) coeff →
        |coeff j| < |coeff i|) := by
  obtain ⟨h1, h2, h3⟩ := selected_spec n cap
    (is_update_candidate it success com max_com (coeff_ratio heffRow coeff)
      min_coeff_ratio lastValid tlistLen) coeff hnz
  refine ⟨?_, h1, h2, ?_⟩
  · intro i
    by_cases hit : it = 0
    · simp only [is_update_candidate, if_pos hit, Bool.and_true, Bool.and_eq_true,
        decide_eq_true_eq]
      constructor
      · rintro ⟨hs, hc⟩
        exact ⟨hs, hc, Or.inl hit⟩
      · rintro ⟨hs, hc, -⟩
        exact ⟨hs, hc⟩
    · simp only [is_update_candidate, if_neg hit, Bool.and_eq_true, decide_eq_true_eq,
        Bool.or_eq_true]
      constructor
      · rintro ⟨⟨hs, hc⟩, hrest⟩
        refine ⟨hs, hc, ?_⟩
        rcases hrest with h | h
        · exact Or.inr (Or.inl h)
        · exact Or.inr (Or.inr (by omega))
      · rintro ⟨hs, hc, hr⟩
        refine ⟨⟨hs, hc⟩, ?_⟩
        rcases hr with h | h | h
        · exact absurd h hit
        · exact Or.inl h
        · exact Or.inr (by omega)
  · intro i hi j hjn hcj hjo
    have hle := h3 i hi j hjn hcj hjo
    have hii := h2 i hi
    have hne2 : j ≠ i := fun hji => hjo (hji ▸ hi)
    exact lt_of_le_of_ne hle (hinj j hjn i hii.1 hcj hii.2 hne2)

/-- Success flags of the concrete C1 instance. -/
def c1wSuccess : Nat → Bool := fun _ => true

/-- Residuals of the concrete C1 instance. -/
def c1wCom : Nat → ℚ := fun _ => 0

/-- Fitted rates 0.5 and -0.9 of the concrete C1 instance. -/
def c1wCoeff : Nat → ℚ := fun i => [1/2, -9/10].getD i 0

/-- Accumulated coefficients of the concrete C1 instance. -/
def c1wHeff : List ℚ := [1]

/-- Candidate flags of the concrete C1 instance (first iteration,
`max_com = 1`). -/
def c1wCand : Nat → Bool :=
  is_update_candidate 0 c1wSuccess c1wCom 1 (coeff_ratio c1wHeff c1wCoeff) 0 5 5

/-- Witness for C1 at a concrete input: with fitted rates 0.5 and -0.9,
both candidates, and a per-iteration cap of 1, the engine selects basis
element 1 (rate -0.9, the larger magnitude), not the first-listed one. -/
theorem c1_witness :
    5 ≤ 5 ∧
      (∀ i, i < 2 → c1wCand i = true → c1wCoeff i ≠ 0) ∧
      (∀ i, i < 2 → ∀ j, j < 2 → c1wCand i = true → c1wCand j = true → i ≠ j →
        |c1wCoeff i| ≠ |c1wCoeff j|) ∧
      (∀ i ∈ selected 2 1 c1wCand c1wCoeff, i < 2 ∧ c1wCand i = true) ∧
      selected 2 1 c1wCand c1wCoeff = [1] := by
  have hnz : ∀ i, i < 2 → c1wCand i = true → c1wCoeff i ≠ 0 := by
    intro i hi hc
    interval_cases i <;> decide
  have hinj : ∀ i, i < 2 → ∀ j, j < 2 → c1wCand i = true → c1wCand j = true → i ≠ j →
      |c1wCoeff i| ≠ |c1wCoeff j| := by
    intro i hi j hj hci hcj hne
    interval_cases i <;> interval_cases j <;> first | exact absurd rfl hne | decide
  refine ⟨le_refl 5, hnz, hinj, ?_, by decide⟩
  exact (c1_candidate_and_selection 2 0 1 1 0 5 5 c1wSuccess c1wCom c1wCoeff c1wHeff
    (le_refl 5) hnz hinj).2.2.1

end QuditSim
